import Mathlib

/-!
Verification development for the pattern-extraction core of the
data-from-images repository (src/server/openai.ts and the derived-tag
logic of src/client/src/pages/Home in Auth.tsx).

The six category matchers of `analyzeImage` are JavaScript regular
expressions applied with `String.match` under the `g` flag and then
deduplicated through `new Set`.  We embed the regexes as an abstract
syntax tree `RE`, give it the JavaScript backtracking semantics
(leftmost match, left-biased alternation, greedy repetition, and the
non-overlapping global scan), and transcribe each regex literally.
-/

namespace DataFromImages

/-! ## Characters -/

/-- The whitespace characters recognised by the `\s` regex class
(ASCII part of the JavaScript definition). -/
def wsChars : List Char := [' ', '\t', '\n', '\r', '\x0b', '\x0c']

def isWsChar (c : Char) : Bool := wsChars.contains c

/-- The decimal digits, i.e. the `\d` regex class `[0-9]`. -/
def digitChars : List Char := ['0', '1', '2', '3', '4', '5', '6', '7', '8', '9']

def isDigitChar (c : Char) : Bool := digitChars.contains c

/-- JavaScript `\w` (word) characters `[A-Za-z0-9_]`, used by `\b`. -/
def isWordChar (c : Char) : Bool := c.isAlphanum || c == '_'

def isWordOpt : Option Char → Bool
  | none => false
  | some c => isWordChar c

/-- Word boundary `\b`: holds between two (optional) characters when
exactly one side is a word character. -/
def atBoundary (prev next : Option Char) : Bool := isWordOpt prev != isWordOpt next

/-! ## Character classes -/

/-- Character classes appearing in the six regexes of `analyzeImage`.
`ranges rs singles withWs` is a bracket class made of character ranges,
individual characters, and optionally the `\s` class; `ilit c` is a
literal character under the `i` flag. -/
inductive CC where
  | digit
  | ws
  | lit (c : Char)
  | ilit (c : Char)
  | ranges (rs : List (Char × Char)) (singles : List Char) (withWs : Bool)
deriving DecidableEq, Repr

def CC.test : CC → Char → Bool
  | .digit, ch => isDigitChar ch
  | .ws, ch => isWsChar ch
  | .lit c, ch => ch == c
  | .ilit c, ch => ch.toLower == c.toLower
  | .ranges rs singles withWs, ch =>
      rs.any (fun p => decide (p.1 ≤ ch) && decide (ch ≤ p.2))
        || singles.contains ch || (withWs && isWsChar ch)

/-! ## Regular expressions -/

/-- Abstract syntax of the regexes used by the extractor: empty string,
a character class, concatenation, (left-biased) alternation, greedy
counted repetition `{lo,hi}` (`hi = none` means unbounded), and the
word-boundary assertion `\b`. -/
inductive RE where
  | eps
  | cls (cc : CC)
  | seq (a b : RE)
  | alt (a b : RE)
  | rep (a : RE) (lo : Nat) (hi : Option Nat)
  | wb
deriving Repr

/-- Optional: `x?`. -/
def RE.opt (a : RE) : RE := .rep a 0 (some 1)

/-- Kleene star: `x*`. -/
def RE.star (a : RE) : RE := .rep a 0 none

/-- One or more: `x+`. -/
def RE.plus (a : RE) : RE := .rep a 1 none

/-- Literal character sequence under the `i` flag. -/
def istrL : List Char → RE
  | [] => .eps
  | c :: cs => .seq (.cls (.ilit c)) (istrL cs)

def istr (s : String) : RE := istrL s.data

/-! ## The backtracking matcher

`mtry fuel r prev s` returns, in JavaScript backtracking priority
order, every way `r` can match a prefix of `s`; each result is
`(consumed, rest, last)` where `consumed ++ rest = s` and `last` is the
character preceding `rest` (used to evaluate later `\b` assertions).
`prev` is the character preceding `s`.  Repetition is unrolled with
`fuel`; an iteration is required to consume at least one character
(none of the source regexes can loop on an empty iteration), so a fuel
of `s.length + 1` is always sufficient. -/

def lastO : List Char → Option Char → Option Char
  | [], p => p
  | c :: cs, _ => lastO cs (some c)

def headO : List Char → Option Char → Option Char
  | [], n => n
  | c :: _, _ => some c

/-- One level of the matcher: structural recursion over the regex,
with `recur` standing for the matcher at one unit less fuel (used when
a repetition loops after a non-empty iteration). -/
def mtryOne (recur : RE → Option Char → List Char → List (List Char × List Char × Option Char)) :
    RE → Option Char → List Char → List (List Char × List Char × Option Char)
  | .eps, prev, s => [([], s, prev)]
  | .wb, prev, s => if atBoundary prev s.head? then [([], s, prev)] else []
  | .cls cc, _, s =>
      match s with
      | [] => []
      | ch :: rest => if cc.test ch then [([ch], rest, some ch)] else []
  | .seq a b, prev, s =>
      (mtryOne recur a prev s).flatMap fun x =>
        (mtryOne recur b x.2.2 x.2.1).map fun y => (x.1 ++ y.1, y.2.1, y.2.2)
  | .alt a b, prev, s => mtryOne recur a prev s ++ mtryOne recur b prev s
  | .rep a lo hi, prev, s =>
      match hi with
      | some 0 => if lo == 0 then [([], s, prev)] else []
      | _ =>
          let tail :=
            ((mtryOne recur a prev s).filter fun x => !x.1.isEmpty).flatMap
              fun x =>
                (recur (.rep a (lo - 1) (hi.map (· - 1))) x.2.2 x.2.1).map
                  fun y => (x.1 ++ y.1, y.2.1, y.2.2)
          if lo == 0 then tail ++ [([], s, prev)] else tail

def mtry : Nat → RE → Option Char → List Char → List (List Char × List Char × Option Char)
  | 0 => mtryOne fun _ _ _ => []
  | fuel + 1 => mtryOne (mtry fuel)

/-- Leftmost match: try the backtracking matcher at each start
position, left to right, and keep the first result. -/
def findFirst (re : RE) (prev : Option Char) (s : List Char) :
    Option (List Char × List Char × Option Char) :=
  match (mtry (s.length + 1) re prev s).head? with
  | some r => some r
  | none =>
      match s with
      | [] => none
      | ch :: s' => findFirst re (some ch) s'

/-- The repeated non-overlapping scan of `String.prototype.match` with
the `g` flag: after each match the search resumes at its end (one
character further if the match was empty). -/
def jsMatchAllAux (re : RE) : Nat → Option Char → List Char → List (List Char)
  | 0, _, _ => []
  | fuel + 1, prev, s =>
      match findFirst re prev s with
      | none => []
      | some (c, rest, pv) =>
          if c.isEmpty then
            c :: (match rest with
                  | [] => []
                  | ch :: r' => jsMatchAllAux re fuel (some ch) r')
          else c :: jsMatchAllAux re fuel pv rest

def jsMatchAll (re : RE) (s : List Char) : List (List Char) :=
  jsMatchAllAux re (s.length + 1) none s

def jsDedupAux {α : Type} [DecidableEq α] (seen : List α) : List α → List α
  | [] => []
  | x :: xs =>
      if x ∈ seen then jsDedupAux seen xs
      else x :: jsDedupAux (x :: seen) xs

/-- Deduplication `[...new Set(matches)]`: keep the first occurrence of each value. -/
def jsDedup {α : Type} [DecidableEq α] : List α → List α :=
  jsDedupAux []

/-- Function `extractPatterns` from src/server/openai.ts: all matches of the
pattern in the text, duplicates removed. -/
def extractPatterns (text : String) (pattern : RE) : List String :=
  jsDedup ((jsMatchAll pattern text.data).map fun l => String.mk l)

/-! ## The six category regexes of `analyzeImage` (src/server/openai.ts) -/

def seqs : List RE → RE
  | [] => .eps
  | [r] => r
  | r :: rs => .seq r (seqs rs)

def alts : List RE → RE
  | [] => .eps
  | [r] => r
  | r :: rs => .alt r (alts rs)

/-- Date separator class: dash or slash. -/
def dateSepCC : CC := .ranges [] ['-', '/'] false

/-- Letter class `[a-z]` under the `i` flag (also `[A-Z]{2}` in the address regex). -/
def iLetterCC : CC := .ranges [('A', 'Z'), ('a', 'z')] [] false

/-- Date regex `\b\d{1,2}[-\/]\d{1,2}[-\/]\d{2,4}\b|\b(?:Jan|...|Dec)[a-z]* \d{1,2},? \d{4}\b` with flags `gi`. -/
def datesRE : RE :=
  .alt
    (seqs [.wb, .rep (.cls .digit) 1 (some 2), .cls dateSepCC,
           .rep (.cls .digit) 1 (some 2), .cls dateSepCC,
           .rep (.cls .digit) 2 (some 4), .wb])
    (seqs [.wb,
           alts (["Jan", "Feb", "Mar", "Apr", "May", "Jun", "Jul", "Aug",
                  "Sep", "Oct", "Nov", "Dec"].map istr),
           .star (.cls iLetterCC), .cls (.lit ' '),
           .rep (.cls .digit) 1 (some 2), .opt (.cls (.lit ',')),
           .cls (.lit ' '), .rep (.cls .digit) 4 (some 4), .wb])

/-- Thousands groups `(?:,\d{3})*`. -/
def thousandsRE : RE := .star (.seq (.cls (.lit ',')) (.rep (.cls .digit) 3 (some 3)))

/-- Cents `(?:\.\d{2})?`. -/
def centsRE : RE := .opt (.seq (.cls (.lit '.')) (.rep (.cls .digit) 2 (some 2)))

/-- Amount regex `\$\d+(?:,\d{3})*(?:\.\d{2})?|\b\d+(?:,\d{3})*(?:\.\d{2})?\s*(?:USD|EUR|GBP)\b` with flags `gi`. -/
def amountsRE : RE :=
  .alt
    (seqs [.cls (.lit '$'), .plus (.cls .digit), thousandsRE, centsRE])
    (seqs [.wb, .plus (.cls .digit), thousandsRE, centsRE, .star (.cls .ws),
           alts [istr "USD", istr "EUR", istr "GBP"], .wb])

/-- Email regex `\b[A-Za-z0-9._%+-]+@[A-Za-z0-9.-]+\.[A-Z|a-z]{2,}\b` with flag `g` (note the
literal `|` inside the TLD class, as in the source). -/
def emailsRE : RE :=
  seqs [.wb,
        .plus (.cls (.ranges [('A', 'Z'), ('a', 'z'), ('0', '9')] ['.', '_', '%', '+', '-'] false)),
        .cls (.lit '@'),
        .plus (.cls (.ranges [('A', 'Z'), ('a', 'z'), ('0', '9')] ['.', '-'] false)),
        .cls (.lit '.'),
        .rep (.cls (.ranges [('A', 'Z'), ('a', 'z')] ['|'] false)) 2 none,
        .wb]

/-- Phone separator class: dash, dot or whitespace. -/
def phoneSepCC : CC := .ranges [] ['-', '.'] true

/-- Phone regex `\+?\d{1,4}[-.\s]?\(?\d{1,3}\)?[-.\s]?\d{1,4}[-.\s]?\d{1,4}[-.\s]?\d{1,9}` with flag `g`. -/
def phoneNumbersRE : RE :=
  seqs [.opt (.cls (.lit '+')), .rep (.cls .digit) 1 (some 4),
        .opt (.cls phoneSepCC), .opt (.cls (.lit '(')),
        .rep (.cls .digit) 1 (some 3), .opt (.cls (.lit ')')),
        .opt (.cls phoneSepCC), .rep (.cls .digit) 1 (some 4),
        .opt (.cls phoneSepCC), .rep (.cls .digit) 1 (some 4),
        .opt (.cls phoneSepCC), .rep (.cls .digit) 1 (some 9)]

/-- Address regex `\d+\s+[A-Za-z\s,]+(?:Street|St|Avenue|Ave|Road|Rd|Boulevard|Blvd|Lane|Ln|Drive|Dr|Court|Ct|Circle|Cir|Way)[,\s]+[A-Za-z\s]+,\s*[A-Z]{2}\s*\d{5}(?:-\d{4})?` with flags `gi`. -/
def addressesRE : RE :=
  seqs [.plus (.cls .digit), .plus (.cls .ws),
        .plus (.cls (.ranges [('A', 'Z'), ('a', 'z')] [','] true)),
        alts (["Street", "St", "Avenue", "Ave", "Road", "Rd", "Boulevard",
               "Blvd", "Lane", "Ln", "Drive", "Dr", "Court", "Ct", "Circle",
               "Cir", "Way"].map istr),
        .plus (.cls (.ranges [] [','] true)),
        .plus (.cls (.ranges [('A', 'Z'), ('a', 'z')] [] true)),
        .cls (.lit ','), .star (.cls .ws), .rep (.cls iLetterCC) 2 (some 2),
        .star (.cls .ws), .rep (.cls .digit) 5 (some 5),
        .opt (.seq (.cls (.lit '-')) (.rep (.cls .digit) 4 (some 4)))]

/-- Alphanumeric class `[A-Z0-9]` under the `i` flag. -/
def alnumCC : CC := .ranges [('A', 'Z'), ('a', 'z'), ('0', '9')] [] false

/-- Identifier regex `\b(?:INV|REF|ID|NO)[-#]?\d+\b|\b[A-Z0-9]{6,}\b` with flags `gi`. -/
def identifiersRE : RE :=
  .alt
    (seqs [.wb, alts [istr "INV", istr "REF", istr "ID", istr "NO"],
           .opt (.cls (.ranges [] ['-', '#'] false)),
           .plus (.cls .digit), .wb])
    (seqs [.wb, .rep (.cls alnumCC) 6 none, .wb])

/-! ## Server data model (src/server/openai.ts) -/

/-- The `patterns` object literal of `analyzeImage`: all six keys are
always assigned. -/
structure ExtractedPatterns where
  dates : List String
  amounts : List String
  emails : List String
  phoneNumbers : List String
  addresses : List String
  identifiers : List String
deriving DecidableEq, Repr

/-- Structure `ExtractedData` from src/server/openai.ts. -/
structure ExtractedData where
  text : String
  patterns : ExtractedPatterns
deriving DecidableEq, Repr

/-- The pure tail of `analyzeImage`: given the text content returned by
the vision model, build the pattern map and the result. -/
def analyzeImage (content : String) : ExtractedData :=
  { text := content
    patterns :=
      { dates := extractPatterns content datesRE
        amounts := extractPatterns content amountsRE
        emails := extractPatterns content emailsRE
        phoneNumbers := extractPatterns content phoneNumbersRE
        addresses := extractPatterns content addressesRE
        identifiers := extractPatterns content identifiersRE } }

/-- The JavaScript `patterns` object viewed as its ordered key/value
entries (the wire shape serialised to the client). -/
def patternsMap (p : ExtractedPatterns) : List (String × List String) :=
  [("dates", p.dates), ("amounts", p.amounts), ("emails", p.emails),
   ("phoneNumbers", p.phoneNumbers), ("addresses", p.addresses),
   ("identifiers", p.identifiers)]

/-- The six pattern categories produced by the extractor. -/
inductive Category where
  | dates | amounts | emails | phoneNumbers | addresses | identifiers
deriving DecidableEq, Repr

def categoryRE : Category → RE
  | .dates => datesRE
  | .amounts => amountsRE
  | .emails => emailsRE
  | .phoneNumbers => phoneNumbersRE
  | .addresses => addressesRE
  | .identifiers => identifiersRE

/-- The raw left-to-right scan (before deduplication). -/
def rawMatches (t : String) (c : Category) : List String :=
  (jsMatchAll (categoryRE c) t.data).map fun l => String.mk l

/-- Matching one category, as `extractPatterns` does per fixed key. -/
def matchCategory (t : String) (c : Category) : List String :=
  jsDedup (rawMatches t c)

def knownCategories : List String :=
  ["dates", "amounts", "emails", "phoneNumbers", "addresses", "identifiers"]

/-- Modelled from the spec: §4.1 and §7 describe a CategoryMatcher
entry point `match(text, category)` that fails fast with an
InvalidCategory error when the requested category is outside the known
set.  The repository applies each category regex directly to a fixed
key and has no dynamic category dispatch, so the name-indexed dispatch
comes from the spec; the per-category matching behaviour is the
code's `extractPatterns`. -/
def matchByName (text : String) (category : String) : Except String (List String) :=
  if category = "dates" then .ok (matchCategory text .dates)
  else if category = "amounts" then .ok (matchCategory text .amounts)
  else if category = "emails" then .ok (matchCategory text .emails)
  else if category = "phoneNumbers" then .ok (matchCategory text .phoneNumbers)
  else if category = "addresses" then .ok (matchCategory text .addresses)
  else if category = "identifiers" then .ok (matchCategory text .identifiers)
  else .error "InvalidCategory"

/-! ## Client data model and derived tags (src/client/src/pages/Auth.tsx) -/

/-- The client `Patterns` interface: nine optional keys. -/
structure Patterns where
  dates : Option (List String)
  amounts : Option (List String)
  emails : Option (List String)
  phoneNumbers : Option (List String)
  addresses : Option (List String)
  identifiers : Option (List String)
  urls : Option (List String)
  socialMediaHandles : Option (List String)
  productCodes : Option (List String)
deriving DecidableEq, Repr

/-- The client view of a server response: the six serialised keys are
defined, the three keys the server never produces are `undefined`. -/
def toClientPatterns (p : ExtractedPatterns) : Patterns :=
  { dates := some p.dates, amounts := some p.amounts, emails := some p.emails
    phoneNumbers := some p.phoneNumbers, addresses := some p.addresses
    identifiers := some p.identifiers
    urls := none, socialMediaHandles := none, productCodes := none }

/-- Truthiness of `patterns.key?.length`. -/
def hasSome : Option (List String) → Bool
  | none => false
  | some l => !l.isEmpty

def listStarts : List Char → List Char → Bool
  | [], _ => true
  | _ :: _, [] => false
  | a :: as, b :: bs => a == b && listStarts as bs

def listInfix (p : List Char) : List Char → Bool
  | [] => p.isEmpty
  | l@(_ :: t) => listStarts p l || listInfix p t

/-- Substring test `text.toLowerCase().includes(key)` for a lowercase
`key` (`toLowerCase` mapped over the character list). -/
def containsLower (s key : String) : Bool :=
  listInfix key.data (s.data.map Char.toLower)

/-- Insertion `newTags.add(t)` on an insertion-ordered set. -/
def addTag (l : List String) (t : String) : List String :=
  if t ∈ l then l else l ++ [t]

/-- The automatic tag generation of `handleImageUpload`
(src/client/src/pages/Auth.tsx): keyword rules, per-category presence
rules, then combination rules, collected into one insertion-ordered
set.  The `Option` mirrors the `if (data.patterns)` guard. -/
def deriveTags (text : String) (patterns : Option Patterns) : List String :=
  match patterns with
  | none => []
  | some p =>
      let t1 := if containsLower text "invoice" then addTag [] "invoice" else []
      let t2 := if containsLower text "receipt" then addTag t1 "receipt" else t1
      let t3 := if containsLower text "contract" then addTag t2 "contract" else t2
      let t4 := if containsLower text "business card" then addTag t3 "contact" else t3
      let t5 := if hasSome p.dates then addTag t4 "date" else t4
      let t6 := if hasSome p.amounts then addTag t5 "financial" else t5
      let t7 := if hasSome p.emails then addTag t6 "email" else t6
      let t8 := if hasSome p.phoneNumbers then addTag t7 "phone" else t7
      let t9 := if hasSome p.addresses then addTag t8 "address" else t8
      let t10 := if hasSome p.identifiers then addTag t9 "reference" else t9
      let t11 := if hasSome p.urls then addTag t10 "website" else t10
      let t12 := if hasSome p.socialMediaHandles then addTag t11 "social" else t11
      let t13 := if hasSome p.productCodes then addTag t12 "product" else t12
      let t14 := if hasSome p.amounts && hasSome p.dates then addTag t13 "transaction" else t13
      let t15 := if hasSome p.emails && hasSome p.phoneNumbers then addTag t14 "contact" else t14
      let t16 := if hasSome p.productCodes && hasSome p.amounts then addTag t15 "order" else t15
      t16

/-! ## Prompt construction (src/server/openai.ts, `analyzeImage`) -/

def defaultPrompt : String :=
  "Analyze this image and extract the following:\n1. All visible text in a clean, readable format\n2. Identify and categorize the following patterns if present:\n   - Dates in any format\n   - Monetary amounts or numerical values\n   - Email addresses\n   - Phone numbers\n   - Physical addresses\n   - Any identifiers (e.g., invoice numbers, reference codes)\nIf there are tables or structured data, preserve their layout.\nReturn the results in a structured format separating the raw text from the identified patterns."

/-- Prompt choice `requirements ? req + glue + defaultPrompt : defaultPrompt`; an
empty string is falsy in JavaScript. -/
def buildPrompt : Option String → String
  | none => defaultPrompt
  | some r =>
      if r = "" then defaultPrompt
      else r ++ "\n\nAdditional analysis requirements: " ++ defaultPrompt

/-! ## Denotational acceptance

`Accept r prev c next` says the regex `r` can match exactly the
characters `c`, in a context where `prev` precedes the match and
`next` follows it (contexts are needed for `\b`).  The backtracking
matcher only ever returns matches in this relation. -/

inductive Accept : RE → Option Char → List Char → Option Char → Prop where
  | eps (prev next : Option Char) : Accept .eps prev [] next
  | wb (prev next : Option Char) (h : atBoundary prev next = true) :
      Accept .wb prev [] next
  | cls (cc : CC) (prev : Option Char) (ch : Char) (next : Option Char)
      (h : cc.test ch = true) : Accept (.cls cc) prev [ch] next
  | seq (a b : RE) (prev : Option Char) (c1 c2 : List Char) (next : Option Char)
      (h1 : Accept a prev c1 (headO c2 next))
      (h2 : Accept b (lastO c1 prev) c2 next) :
      Accept (.seq a b) prev (c1 ++ c2) next
  | altL (a b : RE) (prev : Option Char) (c : List Char) (next : Option Char)
      (h : Accept a prev c next) : Accept (.alt a b) prev c next
  | altR (a b : RE) (prev : Option Char) (c : List Char) (next : Option Char)
      (h : Accept b prev c next) : Accept (.alt a b) prev c next
  | repDone (a : RE) (hi : Option Nat) (prev next : Option Char) :
      Accept (.rep a 0 hi) prev [] next
  | repStep (a : RE) (lo : Nat) (hi : Option Nat) (prev : Option Char)
      (c1 c2 : List Char) (next : Option Char)
      (hhi : hi ≠ some 0) (hne : c1 ≠ [])
      (h1 : Accept a prev c1 (headO c2 next))
      (h2 : Accept (.rep a (lo - 1) (hi.map fun n => n - 1)) (lastO c1 prev) c2 next) :
      Accept (.rep a lo hi) prev (c1 ++ c2) next

theorem lastO_append (c1 c2 : List Char) (p : Option Char) :
    lastO (c1 ++ c2) p = lastO c2 (lastO c1 p) := by
  induction c1 generalizing p with
  | nil => rfl
  | cons x xs ih => simp [lastO, ih]

theorem head?_append_eq_headO (c : List Char) (r : List Char) :
    (c ++ r).head? = headO c r.head? := by
  cases c <;> rfl

theorem mem_of_head? {α : Type} {l : List α} {a : α} (h : l.head? = some a) : a ∈ l := by
  cases l with
  | nil => simp at h
  | cons x xs => simp at h; simp [h]

/-- Soundness of one fuel level of the matcher, given soundness of the
lower level. -/
theorem mtryOne_sound
    (recur : RE → Option Char → List Char → List (List Char × List Char × Option Char))
    (hrec : ∀ r prev s x, x ∈ recur r prev s →
        x.1 ++ x.2.1 = s ∧ x.2.2 = lastO x.1 prev ∧ Accept r prev x.1 x.2.1.head?) :
    ∀ r prev s x, x ∈ mtryOne recur r prev s →
        x.1 ++ x.2.1 = s ∧ x.2.2 = lastO x.1 prev ∧ Accept r prev x.1 x.2.1.head? := by
  intro r
  induction r with
  | eps =>
      intro prev s x hx
      simp only [mtryOne, List.mem_singleton] at hx
      subst hx
      exact ⟨rfl, rfl, Accept.eps prev s.head?⟩
  | wb =>
      intro prev s x hx
      simp only [mtryOne] at hx
      split at hx
      · simp only [List.mem_singleton] at hx
        subst hx
        exact ⟨rfl, rfl, Accept.wb prev s.head? (by assumption)⟩
      · simp at hx
  | cls cc =>
      intro prev s x hx
      cases s with
      | nil => simp [mtryOne] at hx
      | cons ch rest =>
          simp only [mtryOne] at hx
          split at hx
          · simp only [List.mem_singleton] at hx
            subst hx
            exact ⟨rfl, rfl, Accept.cls cc prev ch rest.head? (by assumption)⟩
          · simp at hx
  | seq a b iha ihb =>
      intro prev s x hx
      simp only [mtryOne, List.mem_flatMap, List.mem_map] at hx
      obtain ⟨y, hy, z, hz, hxe⟩ := hx
      obtain ⟨hy1, hy2, hy3⟩ := iha prev s y hy
      obtain ⟨hz1, hz2, hz3⟩ := ihb y.2.2 y.2.1 z hz
      subst hxe
      refine ⟨?_, ?_, ?_⟩
      · simp only [← hy1, ← hz1, List.append_assoc]
      · simp only [hz2, hy2, lastO_append]
      · have hy3' : Accept a prev y.1 (headO z.1 z.2.1.head?) := by
          rwa [← hz1, head?_append_eq_headO] at hy3
        have hz3' : Accept b (lastO y.1 prev) z.1 z.2.1.head? := by
          rwa [hy2] at hz3
        exact Accept.seq a b prev y.1 z.1 z.2.1.head? hy3' hz3'
  | alt a b iha ihb =>
      intro prev s x hx
      simp only [mtryOne, List.mem_append] at hx
      rcases hx with hx | hx
      · obtain ⟨h1, h2, h3⟩ := iha prev s x hx
        exact ⟨h1, h2, Accept.altL a b prev x.1 x.2.1.head? h3⟩
      · obtain ⟨h1, h2, h3⟩ := ihb prev s x hx
        exact ⟨h1, h2, Accept.altR a b prev x.1 x.2.1.head? h3⟩
  | rep a lo hi iha =>
      intro prev s x hx
      have hmain : ∀ (hhi : hi ≠ some 0),
          x ∈ (((mtryOne recur a prev s).filter fun y => !y.1.isEmpty).flatMap
              fun y => ((recur (.rep a (lo - 1) (hi.map fun n => n - 1)) y.2.2 y.2.1).map
                fun z => (y.1 ++ z.1, z.2.1, z.2.2))) →
          x.1 ++ x.2.1 = s ∧ x.2.2 = lastO x.1 prev ∧
            Accept (.rep a lo hi) prev x.1 x.2.1.head? := by
        intro hhi hx
        simp only [List.mem_flatMap, List.mem_filter, List.mem_map] at hx
        obtain ⟨y, ⟨hy, hyne⟩, z, hz, hxe⟩ := hx
        obtain ⟨hy1, hy2, hy3⟩ := iha prev s y hy
        obtain ⟨hz1, hz2, hz3⟩ := hrec _ y.2.2 y.2.1 z hz
        subst hxe
        refine ⟨?_, ?_, ?_⟩
        · simp only [← hy1, ← hz1, List.append_assoc]
        · simp only [hz2, hy2, lastO_append]
        · have hy3' : Accept a prev y.1 (headO z.1 z.2.1.head?) := by
            rwa [← hz1, head?_append_eq_headO] at hy3
          have hz3' : Accept (.rep a (lo - 1) (hi.map fun n => n - 1))
              (lastO y.1 prev) z.1 z.2.1.head? := by
            rwa [hy2] at hz3
          have hyne' : y.1 ≠ [] := by
            simpa using hyne
          exact Accept.repStep a lo hi prev y.1 z.1 z.2.1.head? hhi hyne' hy3' hz3'
      have hstep : ∀ (hhi : hi ≠ some 0),
          x ∈ ((((mtryOne recur a prev s).filter fun y => !y.1.isEmpty).flatMap
              fun y => ((recur (.rep a (lo - 1) (hi.map fun n => n - 1)) y.2.2 y.2.1).map
                fun z => (y.1 ++ z.1, z.2.1, z.2.2))) ++
              if lo == 0 then [(([] : List Char), s, prev)] else []) →
          x.1 ++ x.2.1 = s ∧ x.2.2 = lastO x.1 prev ∧
            Accept (.rep a lo hi) prev x.1 x.2.1.head? := by
        intro hhi hx
        rw [List.mem_append] at hx
        rcases hx with hx | hx
        · exact hmain hhi hx
        · split at hx
          · rename_i hcond
            simp only [List.mem_singleton] at hx
            subst hx
            have hlo : lo = 0 := by simpa using hcond
            subst hlo
            exact ⟨rfl, rfl, Accept.repDone a hi prev s.head?⟩
          · simp at hx
      cases hi with
      | none =>
          simp only [mtryOne] at hx
          apply hstep (by simp)
          split at hx
          · rename_i hcond
            rw [hcond]
            simpa using hx
          · rename_i hcond
            rw [Bool.not_eq_true] at hcond
            rw [hcond]
            simpa using hx
      | some n =>
          cases n with
          | zero =>
              simp only [mtryOne] at hx
              split at hx
              · rename_i hcond
                simp only [List.mem_singleton] at hx
                subst hx
                have hlo : lo = 0 := by simpa using hcond
                subst hlo
                exact ⟨rfl, rfl, Accept.repDone a (some 0) prev s.head?⟩
              · simp at hx
          | succ n =>
              simp only [mtryOne] at hx
              apply hstep (by simp)
              split at hx
              · rename_i hcond
                rw [hcond]
                simpa using hx
              · rename_i hcond
                rw [Bool.not_eq_true] at hcond
                rw [hcond]
                simpa using hx

/-- Every result of the fuelled matcher is a genuine match. -/
theorem mtry_sound : ∀ (fuel : Nat) (r : RE) (prev : Option Char) (s : List Char) x,
    x ∈ mtry fuel r prev s →
    x.1 ++ x.2.1 = s ∧ x.2.2 = lastO x.1 prev ∧ Accept r prev x.1 x.2.1.head? := by
  intro fuel
  induction fuel with
  | zero =>
      exact mtryOne_sound _ (by intro r prev s x hx; simp at hx)
  | succ fuel ih =>
      exact mtryOne_sound _ ih

/-- Every match found by the leftmost search is a genuine match of
some suffix of the text. -/
theorem findFirst_sound : ∀ (re : RE) (s : List Char) (prev : Option Char) x,
    findFirst re prev s = some x →
    ∃ p, x.1 ++ x.2.1 ⊆ s ∧ Accept re p x.1 x.2.1.head? := by
  intro re s
  induction s with
  | nil =>
      intro prev x h
      rw [findFirst] at h
      cases hh : (mtry (List.length [] + 1) re prev []).head? with
      | none => rw [hh] at h; simp at h
      | some y =>
          rw [hh] at h
          cases h
          obtain ⟨h1, _, h3⟩ := mtry_sound _ _ _ _ x (mem_of_head? hh)
          exact ⟨prev, by rw [h1]; exact List.Subset.refl _, h3⟩
  | cons ch s' ih =>
      intro prev x h
      rw [findFirst] at h
      cases hh : (mtry (List.length (ch :: s') + 1) re prev (ch :: s')).head? with
      | none =>
          rw [hh] at h
          obtain ⟨p, hsub, hacc⟩ := ih (some ch) x h
          exact ⟨p, fun a ha => List.mem_cons_of_mem ch (hsub ha), hacc⟩
      | some y =>
          rw [hh] at h
          cases h
          obtain ⟨h1, _, h3⟩ := mtry_sound _ _ _ _ x (mem_of_head? hh)
          exact ⟨prev, by rw [h1]; exact List.Subset.refl _, h3⟩

/-- Every element of the global scan is a genuine match of the regex
in some context. -/
theorem jsMatchAllAux_accept : ∀ (re : RE) (fuel : Nat) (prev : Option Char)
    (s : List Char) m, m ∈ jsMatchAllAux re fuel prev s →
    ∃ p next, Accept re p m next := by
  intro re fuel
  induction fuel with
  | zero => intro prev s m h; simp [jsMatchAllAux] at h
  | succ fuel ih =>
      intro prev s m h
      rw [jsMatchAllAux] at h
      cases hf : findFirst re prev s with
      | none => rw [hf] at h; simp at h
      | some x =>
          obtain ⟨c, rest, pv⟩ := x
          rw [hf] at h
          simp only at h
          obtain ⟨p, _, hacc⟩ := findFirst_sound re s prev (c, rest, pv) hf
          by_cases hce : c.isEmpty
          · rw [if_pos hce] at h
            rcases List.mem_cons.mp h with rfl | h
            · exact ⟨p, rest.head?, hacc⟩
            · cases rest with
              | nil => simp at h
              | cons ch r' => exact ih (some ch) r' m h
          · rw [if_neg hce] at h
            rcases List.mem_cons.mp h with rfl | h
            · exact ⟨p, rest.head?, hacc⟩
            · exact ih pv rest m h

/-! ## Deduplication lemmas -/

theorem mem_jsDedupAux {α : Type} [DecidableEq α] :
    ∀ (l seen : List α) a, a ∈ jsDedupAux seen l ↔ a ∈ l ∧ a ∉ seen := by
  intro l
  induction l with
  | nil => intro seen a; simp [jsDedupAux]
  | cons x xs ih =>
      intro seen a
      rw [jsDedupAux]
      split
      · rename_i hx
        rw [ih]
        constructor
        · rintro ⟨h1, h2⟩
          exact ⟨List.mem_cons_of_mem x h1, h2⟩
        · rintro ⟨h1, h2⟩
          rcases List.mem_cons.mp h1 with rfl | h1
          · exact absurd hx h2
          · exact ⟨h1, h2⟩
      · rename_i hx
        simp only [List.mem_cons, ih]
        constructor
        · rintro (rfl | ⟨h1, h2⟩)
          · exact ⟨Or.inl rfl, hx⟩
          · exact ⟨Or.inr h1, fun hc => h2 (Or.inr hc)⟩
        · rintro ⟨rfl | h1, h2⟩
          · exact Or.inl rfl
          · by_cases hax : a = x
            · exact Or.inl hax
            · exact Or.inr ⟨h1, fun hc => hc.elim hax h2⟩

theorem mem_jsDedup {α : Type} [DecidableEq α] (l : List α) (a : α) :
    a ∈ jsDedup l ↔ a ∈ l := by
  rw [jsDedup, mem_jsDedupAux]
  simp

theorem jsDedupAux_sublist {α : Type} [DecidableEq α] :
    ∀ (l seen : List α), (jsDedupAux seen l).Sublist l := by
  intro l
  induction l with
  | nil => intro seen; simp [jsDedupAux]
  | cons x xs ih =>
      intro seen
      rw [jsDedupAux]
      split
      · exact (ih seen).cons x
      · exact (ih (x :: seen)).cons₂ x

theorem jsDedup_sublist {α : Type} [DecidableEq α] (l : List α) :
    (jsDedup l).Sublist l := jsDedupAux_sublist l []

theorem jsDedupAux_nodup {α : Type} [DecidableEq α] :
    ∀ (l seen : List α), (jsDedupAux seen l).Nodup := by
  intro l
  induction l with
  | nil => intro seen; simp [jsDedupAux]
  | cons x xs ih =>
      intro seen
      rw [jsDedupAux]
      split
      · exact ih seen
      · refine List.nodup_cons.mpr ⟨fun hc => ?_, ih (x :: seen)⟩
        exact ((mem_jsDedupAux xs (x :: seen) x).mp hc).2 (List.mem_cons_self x seen)

theorem jsDedup_nodup {α : Type} [DecidableEq α] (l : List α) :
    (jsDedup l).Nodup := jsDedupAux_nodup l []

/-- Position of the first occurrence of a value in a list. -/
def firstIdx {α : Type} [DecidableEq α] (l : List α) (a : α) : Nat :=
  match l with
  | [] => 0
  | x :: xs => if x = a then 0 else firstIdx xs a + 1

theorem firstIdx_cons_self {α : Type} [DecidableEq α] (x : α) (xs : List α) :
    firstIdx (x :: xs) x = 0 := by
  rw [firstIdx, if_pos rfl]

theorem firstIdx_cons_ne {α : Type} [DecidableEq α] {x a : α} (xs : List α)
    (h : x ≠ a) : firstIdx (x :: xs) a = firstIdx xs a + 1 := by
  rw [firstIdx, if_neg h]

/-- Deduplication lists values in order of their first occurrence: the
positions of the first occurrences are strictly increasing. -/
theorem jsDedupAux_pairwise_firstIdx {α : Type} [DecidableEq α] :
    ∀ (l seen : List α), (jsDedupAux seen l).Pairwise
      (fun a b => firstIdx l a < firstIdx l b) := by
  intro l
  induction l with
  | nil => intro seen; simp [jsDedupAux]
  | cons x xs ih =>
      intro seen
      rw [jsDedupAux]
      split
      · rename_i hx
        refine (ih seen).imp_of_mem ?_
        intro a b ha hb hab
        have haxs := (mem_jsDedupAux xs seen a).mp ha
        have hbxs := (mem_jsDedupAux xs seen b).mp hb
        have hax : x ≠ a := fun he => haxs.2 (he ▸ hx)
        have hbx : x ≠ b := fun he => hbxs.2 (he ▸ hx)
        rw [firstIdx_cons_ne xs hax, firstIdx_cons_ne xs hbx]
        exact Nat.succ_lt_succ hab
      · rename_i hx
        refine List.pairwise_cons.mpr ⟨?_, ?_⟩
        · intro b hb
          have hbxs := (mem_jsDedupAux xs (x :: seen) b).mp hb
          have hbx : x ≠ b := fun he => hbxs.2 (he ▸ List.mem_cons_self x seen)
          rw [firstIdx_cons_self, firstIdx_cons_ne xs hbx]
          exact Nat.succ_pos _
        · refine (ih (x :: seen)).imp_of_mem ?_
          intro a b ha hb hab
          have haxs := (mem_jsDedupAux xs (x :: seen) a).mp ha
          have hbxs := (mem_jsDedupAux xs (x :: seen) b).mp hb
          have hax : x ≠ a := fun he => haxs.2 (he ▸ List.mem_cons_self x seen)
          have hbx : x ≠ b := fun he => hbxs.2 (he ▸ List.mem_cons_self x seen)
          rw [firstIdx_cons_ne xs hax, firstIdx_cons_ne xs hbx]
          exact Nat.succ_lt_succ hab

theorem jsDedup_pairwise_firstIdx {α : Type} [DecidableEq α] (l : List α) :
    (jsDedup l).Pairwise (fun a b => firstIdx l a < firstIdx l b) :=
  jsDedupAux_pairwise_firstIdx l []

/-! ## Static analyses of regexes -/

/-- Conservative test whether a regex can match the empty string. -/
def canEmpty : RE → Bool
  | .eps => true
  | .wb => true
  | .cls _ => false
  | .seq a b => canEmpty a && canEmpty b
  | .alt a b => canEmpty a || canEmpty b
  | .rep a lo _ => lo == 0 || canEmpty a

/-- True when the class accepts no whitespace character. -/
def ccNoWs (cc : CC) : Bool := wsChars.all fun w => !cc.test w

/-- True when every nonempty match of the regex starts with a
non-whitespace character. -/
def firstOK : RE → Bool
  | .eps => true
  | .wb => true
  | .cls cc => ccNoWs cc
  | .seq a b => firstOK a && (!canEmpty a || firstOK b)
  | .alt a b => firstOK a && firstOK b
  | .rep a _ _ => firstOK a

/-- True when every nonempty match of the regex ends with a
non-whitespace character. -/
def lastOK : RE → Bool
  | .eps => true
  | .wb => true
  | .cls cc => ccNoWs cc
  | .seq a b => lastOK b && (!canEmpty b || lastOK a)
  | .alt a b => lastOK a && lastOK b
  | .rep a _ _ => lastOK a

theorem accept_canEmpty : ∀ {r p c n}, Accept r p c n → c = [] → canEmpty r = true := by
  intro r p c n h
  induction h with
  | eps => intro _; rfl
  | wb => intro _; rfl
  | cls => intro hc; simp at hc
  | seq a b prev c1 c2 next h1 h2 ih1 ih2 =>
      intro hc
      rcases List.append_eq_nil.mp hc with ⟨hc1, hc2⟩
      simp [canEmpty, ih1 hc1, ih2 hc2]
  | altL a b prev c next h ih => intro hc; simp [canEmpty, ih hc]
  | altR a b prev c next h ih => intro hc; simp [canEmpty, ih hc]
  | repDone => intro _; simp [canEmpty]
  | repStep a lo hi prev c1 c2 next hhi hne h1 h2 ih1 ih2 =>
      intro hc
      exact absurd (List.append_eq_nil.mp hc).1 hne

theorem ccNoWs_sound {cc : CC} {ch : Char} (hok : ccNoWs cc = true)
    (htest : cc.test ch = true) : isWsChar ch = false := by
  by_cases hw : isWsChar ch = true
  · exfalso
    have hmem : ch ∈ wsChars := by
      have := hw
      rw [isWsChar] at this
      exact List.mem_of_elem_eq_true this
    have hall := List.all_eq_true.mp hok ch hmem
    rw [htest] at hall
    simp at hall
  · simpa using hw

theorem accept_firstOK : ∀ {r p c n}, Accept r p c n → firstOK r = true →
    ∀ ch, c.head? = some ch → isWsChar ch = false := by
  intro r p c n h
  induction h with
  | eps => intro _ ch hch; simp at hch
  | wb => intro _ ch hch; simp at hch
  | cls cc prev ch0 next htest =>
      intro hok ch hch
      simp only [List.head?_cons, Option.some.injEq] at hch
      subst hch
      exact ccNoWs_sound hok htest
  | seq a b prev c1 c2 next h1 h2 ih1 ih2 =>
      intro hok ch hch
      rw [firstOK, Bool.and_eq_true] at hok
      cases c1 with
      | nil =>
          have hA : canEmpty a = true := accept_canEmpty h1 rfl
          have hB : firstOK b = true := by
            rcases Bool.or_eq_true _ _ |>.mp hok.2 with hx | hx
            · rw [Bool.not_eq_true'] at hx; rw [hA] at hx; cases hx
            · exact hx
          exact ih2 hB ch (by simpa using hch)
      | cons y ys =>
          have hyc : y = ch := by simpa using hch
          exact hyc ▸ ih1 hok.1 y rfl
  | altL a b prev c next h ih =>
      intro hok ch hch
      rw [firstOK, Bool.and_eq_true] at hok
      exact ih hok.1 ch hch
  | altR a b prev c next h ih =>
      intro hok ch hch
      rw [firstOK, Bool.and_eq_true] at hok
      exact ih hok.2 ch hch
  | repDone => intro _ ch hch; simp at hch
  | repStep a lo hi prev c1 c2 next hhi hne h1 h2 ih1 ih2 =>
      intro hok ch hch
      cases c1 with
      | nil => exact absurd rfl hne
      | cons y ys =>
          have hyc : y = ch := by simpa using hch
          exact hyc ▸ ih1 hok y rfl

theorem accept_lastOK : ∀ {r p c n}, Accept r p c n → lastOK r = true →
    ∀ ch, c.getLast? = some ch → isWsChar ch = false := by
  intro r p c n h
  induction h with
  | eps => intro _ ch hch; simp at hch
  | wb => intro _ ch hch; simp at hch
  | cls cc prev ch0 next htest =>
      intro hok ch hch
      simp only [List.getLast?_singleton, Option.some.injEq] at hch
      subst hch
      exact ccNoWs_sound hok htest
  | seq a b prev c1 c2 next h1 h2 ih1 ih2 =>
      intro hok ch hch
      rw [lastOK, Bool.and_eq_true] at hok
      cases hc2 : c2 with
      | nil =>
          subst hc2
          have hB : canEmpty b = true := accept_canEmpty h2 rfl
          have hA : lastOK a = true := by
            rcases Bool.or_eq_true _ _ |>.mp hok.2 with hx | hx
            · rw [Bool.not_eq_true'] at hx; rw [hB] at hx; cases hx
            · exact hx
          exact ih1 hA ch (by simpa using hch)
      | cons y ys =>
          have hne2 : c2 ≠ [] := by rw [hc2]; simp
          rw [List.getLast?_append_of_ne_nil c1 hne2] at hch
          exact ih2 hok.1 ch hch
  | altL a b prev c next h ih =>
      intro hok ch hch
      rw [lastOK, Bool.and_eq_true] at hok
      exact ih hok.1 ch hch
  | altR a b prev c next h ih =>
      intro hok ch hch
      rw [lastOK, Bool.and_eq_true] at hok
      exact ih hok.2 ch hch
  | repDone => intro _ ch hch; simp at hch
  | repStep a lo hi prev c1 c2 next hhi hne h1 h2 ih1 ih2 =>
      intro hok ch hch
      cases hc2 : c2 with
      | nil =>
          subst hc2
          exact ih1 hok ch (by simpa using hch)
      | cons y ys =>
          have hne2 : c2 ≠ [] := by rw [hc2]; simp
          rw [List.getLast?_append_of_ne_nil c1 hne2] at hch
          exact ih2 hok ch hch

/-! ## Digit counting -/

def dCount (l : List Char) : Nat := (l.filter isDigitChar).length

def digitCount (s : String) : Nat := dCount s.data

theorem dCount_append (a b : List Char) : dCount (a ++ b) = dCount a + dCount b := by
  simp [dCount, List.filter_append]

/-- True when the class accepts only decimal digits. -/
def ccOnlyDigit : CC → Bool
  | .digit => true
  | .lit c => isDigitChar c
  | _ => false

/-- True when the class accepts no decimal digit (conservative). -/
def ccNoDigit : CC → Bool
  | .digit => false
  | .ws => true
  | .lit c => !isDigitChar c
  | .ilit _ => false
  | .ranges rs singles _ => rs.isEmpty && singles.all fun c => !isDigitChar c

/-- Lower bound on the number of digits in any match. -/
def dLB : RE → Nat
  | .eps => 0
  | .wb => 0
  | .cls cc => if ccOnlyDigit cc then 1 else 0
  | .seq a b => dLB a + dLB b
  | .alt a b => min (dLB a) (dLB b)
  | .rep a lo _ => lo * dLB a

/-- Upper bound on the number of digits in any match (`none` means
unbounded). -/
def dUB : RE → Option Nat
  | .eps => some 0
  | .wb => some 0
  | .cls cc => some (if ccNoDigit cc then 0 else 1)
  | .seq a b =>
      match dUB a, dUB b with
      | some m, some n => some (m + n)
      | _, _ => none
  | .alt a b =>
      match dUB a, dUB b with
      | some m, some n => some (max m n)
      | _, _ => none
  | .rep a _ hi =>
      match dUB a with
      | some 0 => some 0
      | some (m + 1) =>
          match hi with
          | some h => some (h * (m + 1))
          | none => none
      | none => none

theorem ccOnlyDigit_sound {cc : CC} {ch : Char} (hcc : ccOnlyDigit cc = true)
    (htest : cc.test ch = true) : isDigitChar ch = true := by
  cases cc with
  | digit => exact htest
  | lit c =>
      have : ch = c := by simpa [CC.test] using htest
      subst this
      exact hcc
  | ws => simp [ccOnlyDigit] at hcc
  | ilit c => simp [ccOnlyDigit] at hcc
  | ranges rs singles withWs => simp [ccOnlyDigit] at hcc

theorem wsChars_not_digit : ∀ c ∈ wsChars, isDigitChar c = false := by decide

theorem ccNoDigit_sound {cc : CC} {ch : Char} (hcc : ccNoDigit cc = true)
    (htest : cc.test ch = true) : isDigitChar ch = false := by
  cases cc with
  | digit => simp [ccNoDigit] at hcc
  | ws =>
      have hmem : ch ∈ wsChars := by
        rw [CC.test, isWsChar] at htest
        exact List.mem_of_elem_eq_true htest
      exact wsChars_not_digit ch hmem
  | lit c =>
      have : ch = c := by simpa [CC.test] using htest
      subst this
      simpa [ccNoDigit] using hcc
  | ilit c => simp [ccNoDigit] at hcc
  | ranges rs singles withWs =>
      rw [ccNoDigit, Bool.and_eq_true] at hcc
      obtain ⟨hrs, hsingles⟩ := hcc
      rw [CC.test] at htest
      rcases Bool.or_eq_true _ _ |>.mp htest with htest | htest
      · rcases Bool.or_eq_true _ _ |>.mp htest with htest | htest
        · rw [List.isEmpty_iff.mp hrs] at htest
          simp at htest
        · have hmem : ch ∈ singles := List.mem_of_elem_eq_true htest
          have := List.all_eq_true.mp hsingles ch hmem
          simpa using this
      · rw [Bool.and_eq_true] at htest
        have hmem : ch ∈ wsChars := by
          rw [isWsChar] at htest
          exact List.mem_of_elem_eq_true htest.2
        exact wsChars_not_digit ch hmem

theorem accept_digit_bounds : ∀ {r p c n}, Accept r p c n →
    dLB r ≤ dCount c ∧ (∀ u, dUB r = some u → dCount c ≤ u) := by
  intro r p c n h
  induction h with
  | eps => exact ⟨Nat.le_refl _, fun u _ => Nat.zero_le u⟩
  | wb => exact ⟨Nat.le_refl _, fun u _ => Nat.zero_le u⟩
  | cls cc prev ch next htest =>
      constructor
      · rw [dLB]
        split
        · rename_i hcc
          have := ccOnlyDigit_sound hcc htest
          simp [dCount, this]
        · exact Nat.zero_le _
      · intro u hu
        rw [dUB, Option.some.injEq] at hu
        subst hu
        split
        · rename_i hcc
          have := ccNoDigit_sound hcc htest
          simp [dCount, this]
        · have : dCount [ch] ≤ dCount [ch] := Nat.le_refl _
          calc dCount [ch] ≤ 1 := by
                rw [dCount]
                cases hd : isDigitChar ch <;> simp [hd]
            _ = 1 := rfl
  | seq a b prev c1 c2 next h1 h2 ih1 ih2 =>
      rw [dCount_append]
      constructor
      · exact Nat.add_le_add ih1.1 ih2.1
      · intro u hu
        rw [dUB] at hu
        cases hma : dUB a with
        | none => rw [hma] at hu; simp at hu
        | some m =>
            cases hmb : dUB b with
            | none => rw [hma, hmb] at hu; simp at hu
            | some nb =>
                rw [hma, hmb, Option.some.injEq] at hu
                subst hu
                exact Nat.add_le_add (ih1.2 m hma) (ih2.2 nb hmb)
  | altL a b prev c next h ih =>
      constructor
      · exact Nat.le_trans (Nat.min_le_left _ _) ih.1
      · intro u hu
        rw [dUB] at hu
        cases hma : dUB a with
        | none => rw [hma] at hu; simp at hu
        | some m =>
            cases hmb : dUB b with
            | none => rw [hma, hmb] at hu; simp at hu
            | some nb =>
                rw [hma, hmb, Option.some.injEq] at hu
                subst hu
                exact Nat.le_trans (ih.2 m hma) (Nat.le_max_left _ _)
  | altR a b prev c next h ih =>
      constructor
      · exact Nat.le_trans (Nat.min_le_right _ _) ih.1
      · intro u hu
        rw [dUB] at hu
        cases hma : dUB a with
        | none => rw [hma] at hu; simp at hu
        | some m =>
            cases hmb : dUB b with
            | none => rw [hma, hmb] at hu; simp at hu
            | some nb =>
                rw [hma, hmb, Option.some.injEq] at hu
                subst hu
                exact Nat.le_trans (ih.2 nb hmb) (Nat.le_max_right _ _)
  | repDone a hi prev next =>
      exact ⟨by simp [dLB, dCount], fun u _ => Nat.zero_le u⟩
  | repStep a lo hi prev c1 c2 next hhi hne h1 h2 ih1 ih2 =>
      rw [dCount_append]
      constructor
      · rw [dLB]
        have hl2 : (lo - 1) * dLB a ≤ dCount c2 := by
          have := ih2.1
          rwa [dLB] at this
        cases lo with
        | zero => rw [Nat.zero_mul]; exact Nat.zero_le _
        | succ lo' =>
            have hsim : lo' + 1 - 1 = lo' := rfl
            rw [hsim] at hl2
            calc (lo' + 1) * dLB a = lo' * dLB a + dLB a := Nat.succ_mul lo' (dLB a)
              _ = dLB a + lo' * dLB a := Nat.add_comm _ _
              _ ≤ dCount c1 + dCount c2 := Nat.add_le_add ih1.1 hl2
      · intro u hu
        rw [dUB] at hu
        cases hma : dUB a with
        | none => rw [hma] at hu; simp at hu
        | some m =>
            cases m with
            | zero =>
                rw [hma] at hu
                simp only [Option.some.injEq] at hu
                subst hu
                have hc1 : dCount c1 ≤ 0 := ih1.2 0 hma
                have hc2 : dCount c2 ≤ 0 := by
                  refine ih2.2 0 ?_
                  rw [dUB, hma]
                have := Nat.add_le_add hc1 hc2
                simpa using this
            | succ m' =>
                cases hi with
                | none => rw [hma] at hu; simp at hu
                | some hv =>
                    rw [hma] at hu
                    simp only [Option.some.injEq] at hu
                    subst hu
                    cases hv with
                    | zero => exact absurd rfl hhi
                    | succ hv' =>
                        have hc1 : dCount c1 ≤ m' + 1 := ih1.2 (m' + 1) hma
                        have hc2 : dCount c2 ≤ hv' * (m' + 1) := by
                          refine ih2.2 (hv' * (m' + 1)) ?_
                          rw [dUB, hma]
                          simp
                        calc dCount c1 + dCount c2 ≤ (m' + 1) + hv' * (m' + 1) :=
                              Nat.add_le_add hc1 hc2
                          _ = (hv' + 1) * (m' + 1) := by
                              rw [Nat.succ_mul, Nat.add_comm]

/-! ## From extractor membership to acceptance -/

theorem mem_extractPatterns_accept {t : String} {re : RE} {m : String}
    (h : m ∈ extractPatterns t re) : ∃ p next, Accept re p m.data next := by
  rw [extractPatterns, mem_jsDedup] at h
  obtain ⟨l, hl, rfl⟩ := List.mem_map.mp h
  exact jsMatchAllAux_accept re _ none t.data l hl

theorem matchCategory_eq_extract (t : String) (c : Category) :
    matchCategory t c = extractPatterns t (categoryRE c) := rfl

theorem matchCategory_accept {t : String} {c : Category} {m : String}
    (h : m ∈ matchCategory t c) : ∃ p next, Accept (categoryRE c) p m.data next :=
  mem_extractPatterns_accept (matchCategory_eq_extract t c ▸ h)

/-- Static facts about all six regexes: none can match the empty
string, and no match can start or end with whitespace. -/
theorem categoryRE_clean : ∀ c : Category,
    canEmpty (categoryRE c) = false ∧ firstOK (categoryRE c) = true ∧
      lastOK (categoryRE c) = true := by
  intro c
  cases c <;> exact ⟨by decide, by decide, by decide⟩

/-! ## Trimming (JavaScript `String.prototype.trim`) -/

def dropTrailWs (l : List Char) : List Char := (l.reverse.dropWhile isWsChar).reverse

def jsTrimL (l : List Char) : List Char := dropTrailWs (l.dropWhile isWsChar)

/-- Leading/trailing whitespace trim on strings. -/
def jsTrim (s : String) : String := String.mk (jsTrimL s.data)

theorem dropWhile_eq_self_of_head {l : List Char}
    (hh : ∀ ch, l.head? = some ch → isWsChar ch = false) :
    l.dropWhile isWsChar = l := by
  cases l with
  | nil => rfl
  | cons x xs =>
      rw [List.dropWhile_cons, hh x rfl]
      simp

theorem jsTrimL_eq_self {l : List Char}
    (hh : ∀ ch, l.head? = some ch → isWsChar ch = false)
    (hl : ∀ ch, l.getLast? = some ch → isWsChar ch = false) :
    jsTrimL l = l := by
  have h1 : l.dropWhile isWsChar = l := dropWhile_eq_self_of_head hh
  have h2 : l.reverse.dropWhile isWsChar = l.reverse := by
    apply dropWhile_eq_self_of_head
    intro ch hch
    rw [List.head?_reverse] at hch
    exact hl ch hch
  rw [jsTrimL, h1, dropTrailWs, h2, List.reverse_reverse]

/-- Any category match survives trimming unchanged and is nonempty. -/
theorem matchCategory_trim_id : ∀ (t : String) (c : Category) m,
    m ∈ matchCategory t c → jsTrim m = m ∧ m ≠ "" := by
  intro t c m hm
  obtain ⟨p, next, hacc⟩ := matchCategory_accept hm
  obtain ⟨hce, hfo, hlo⟩ := categoryRE_clean c
  have hne : m.data ≠ [] := by
    intro hnil
    rw [accept_canEmpty hacc hnil] at hce
    cases hce
  have htrim : jsTrimL m.data = m.data :=
    jsTrimL_eq_self (accept_firstOK hacc hfo) (accept_lastOK hacc hlo)
  constructor
  · show String.mk (jsTrimL m.data) = m
    rw [htrim]
  · intro he
    apply hne
    rw [he]

/-! ## Inversion lemmas for specific regex forms -/

theorem accept_rep_cls_aux : ∀ {r p c n}, Accept r p c n →
    ∀ cc lo hi, r = .rep (.cls cc) lo hi →
    (∀ ch ∈ c, cc.test ch = true) ∧ lo ≤ c.length ∧
      (∀ h, hi = some h → c.length ≤ h) := by
  intro r p c n h
  induction h with
  | eps => intro cc lo hi heq; simp at heq
  | wb => intro cc lo hi heq; simp at heq
  | cls => intro cc lo hi heq; simp at heq
  | seq a b prev c1 c2 next h1 h2 ih1 ih2 => intro cc lo hi heq; simp at heq
  | altL a b prev c next h ih => intro cc lo hi heq; simp at heq
  | altR a b prev c next h ih => intro cc lo hi heq; simp at heq
  | repDone a hi0 prev next =>
      intro cc lo hi heq
      rw [RE.rep.injEq] at heq
      obtain ⟨ha, hlo, hhiq⟩ := heq
      refine ⟨by simp, by omega, fun hq hhq => by simp⟩
  | repStep a lo0 hi0 prev c1 c2 next hhi hne h1 h2 ih1 ih2 =>
      intro cc lo hi heq
      rw [RE.rep.injEq] at heq
      obtain ⟨ha, hlo, hhiq⟩ := heq
      subst ha
      subst hlo
      subst hhiq
      cases h1 with
      | cls _ _ ch _ htest =>
          obtain ⟨ha2, hl2, hu2⟩ := ih2 cc (lo0 - 1) (hi0.map fun n => n - 1) rfl
          refine ⟨?_, ?_, ?_⟩
          · intro ch2 hch2
            rcases List.mem_cons.mp hch2 with rfl | hch2
            · exact htest
            · exact ha2 ch2 hch2
          · have : ([ch] ++ c2).length = c2.length + 1 := by simp
            rw [this]
            omega
          · intro hq hhq
            subst hhq
            have hq0 : hq ≠ 0 := fun he => hhi (by rw [he])
            have := hu2 (hq - 1) (by simp)
            have hlen : ([ch] ++ c2).length = c2.length + 1 := by simp
            rw [hlen]
            omega

theorem accept_rep_cls {cc : CC} {lo : Nat} {hi : Option Nat} {p c n}
    (h : Accept (.rep (.cls cc) lo hi) p c n) :
    (∀ ch ∈ c, cc.test ch = true) ∧ lo ≤ c.length ∧
      (∀ hq, hi = some hq → c.length ≤ hq) :=
  accept_rep_cls_aux h cc lo hi rfl

theorem accept_istrL : ∀ (L : List Char) {p c n}, Accept (istrL L) p c n →
    c.map Char.toLower = L.map Char.toLower := by
  intro L
  induction L with
  | nil =>
      intro p c n h
      rw [istrL] at h
      cases h
      rfl
  | cons x xs ih =>
      intro p c n h
      rw [istrL] at h
      cases h
      rename_i c1 c2 h1 h2
      cases h1
      rename_i ch htest
      have hx : ch.toLower = x.toLower := by
        rw [CC.test] at htest
        exact eq_of_beq htest
      simp only [List.cons_append, List.nil_append, List.map_cons]
      rw [hx, ih h2]

/-! ## Simple inversion helpers -/

theorem accept_seq_inv {a b : RE} {p : Option Char} {c : List Char} {n : Option Char}
    (h : Accept (.seq a b) p c n) :
    ∃ c1 c2, c = c1 ++ c2 ∧ Accept a p c1 (headO c2 n) ∧ Accept b (lastO c1 p) c2 n := by
  cases h
  rename_i c1 c2 h1 h2
  exact ⟨c1, c2, rfl, h1, h2⟩

theorem accept_alt_inv {a b : RE} {p : Option Char} {c : List Char} {n : Option Char}
    (h : Accept (.alt a b) p c n) : Accept a p c n ∨ Accept b p c n := by
  cases h
  · rename_i h; exact Or.inl h
  · rename_i h; exact Or.inr h

theorem accept_wb_inv {p : Option Char} {c : List Char} {n : Option Char}
    (h : Accept .wb p c n) : c = [] := by
  cases h
  rfl

/-! ## Derived-tag membership analysis -/

theorem mem_of_ite_addTag {c : Bool} {l : List String} {t a : String}
    (h : a ∈ (if c = true then addTag l t else l)) : a ∈ l ∨ (a = t ∧ c = true) := by
  split at h
  · rename_i hc
    rw [addTag] at h
    split at h
    · exact Or.inl h
    · rcases List.mem_append.mp h with h | h
      · exact Or.inl h
      · simp only [List.mem_singleton] at h
        exact Or.inr ⟨h, hc⟩
  · exact Or.inl h

theorem deriveTags_website {text : String} {p : Patterns}
    (h : "website" ∈ deriveTags text (some p)) : hasSome p.urls = true := by
  simp only [deriveTags] at h
  refine (mem_of_ite_addTag h).elim (fun h => ?_) (fun hx => absurd hx.1 (by decide))
  refine (mem_of_ite_addTag h).elim (fun h => ?_) (fun hx => absurd hx.1 (by decide))
  refine (mem_of_ite_addTag h).elim (fun h => ?_) (fun hx => absurd hx.1 (by decide))
  refine (mem_of_ite_addTag h).elim (fun h => ?_) (fun hx => absurd hx.1 (by decide))
  refine (mem_of_ite_addTag h).elim (fun h => ?_) (fun hx => absurd hx.1 (by decide))
  refine (mem_of_ite_addTag h).elim (fun h => ?_) (fun hx => hx.2)
  refine (mem_of_ite_addTag h).elim (fun h => ?_) (fun hx => absurd hx.1 (by decide))
  refine (mem_of_ite_addTag h).elim (fun h => ?_) (fun hx => absurd hx.1 (by decide))
  refine (mem_of_ite_addTag h).elim (fun h => ?_) (fun hx => absurd hx.1 (by decide))
  refine (mem_of_ite_addTag h).elim (fun h => ?_) (fun hx => absurd hx.1 (by decide))
  refine (mem_of_ite_addTag h).elim (fun h => ?_) (fun hx => absurd hx.1 (by decide))
  refine (mem_of_ite_addTag h).elim (fun h => ?_) (fun hx => absurd hx.1 (by decide))
  refine (mem_of_ite_addTag h).elim (fun h => ?_) (fun hx => absurd hx.1 (by decide))
  refine (mem_of_ite_addTag h).elim (fun h => ?_) (fun hx => absurd hx.1 (by decide))
  refine (mem_of_ite_addTag h).elim (fun h => ?_) (fun hx => absurd hx.1 (by decide))
  refine (mem_of_ite_addTag h).elim (fun h => ?_) (fun hx => absurd hx.1 (by decide))
  exact absurd h (List.not_mem_nil _)

theorem deriveTags_social {text : String} {p : Patterns}
    (h : "social" ∈ deriveTags text (some p)) : hasSome p.socialMediaHandles = true := by
  simp only [deriveTags] at h
  refine (mem_of_ite_addTag h).elim (fun h => ?_) (fun hx => absurd hx.1 (by decide))
  refine (mem_of_ite_addTag h).elim (fun h => ?_) (fun hx => absurd hx.1 (by decide))
  refine (mem_of_ite_addTag h).elim (fun h => ?_) (fun hx => absurd hx.1 (by decide))
  refine (mem_of_ite_addTag h).elim (fun h => ?_) (fun hx => absurd hx.1 (by decide))
  refine (mem_of_ite_addTag h).elim (fun h => ?_) (fun hx => hx.2)
  refine (mem_of_ite_addTag h).elim (fun h => ?_) (fun hx => absurd hx.1 (by decide))
  refine (mem_of_ite_addTag h).elim (fun h => ?_) (fun hx => absurd hx.1 (by decide))
  refine (mem_of_ite_addTag h).elim (fun h => ?_) (fun hx => absurd hx.1 (by decide))
  refine (mem_of_ite_addTag h).elim (fun h => ?_) (fun hx => absurd hx.1 (by decide))
  refine (mem_of_ite_addTag h).elim (fun h => ?_) (fun hx => absurd hx.1 (by decide))
  refine (mem_of_ite_addTag h).elim (fun h => ?_) (fun hx => absurd hx.1 (by decide))
  refine (mem_of_ite_addTag h).elim (fun h => ?_) (fun hx => absurd hx.1 (by decide))
  refine (mem_of_ite_addTag h).elim (fun h => ?_) (fun hx => absurd hx.1 (by decide))
  refine (mem_of_ite_addTag h).elim (fun h => ?_) (fun hx => absurd hx.1 (by decide))
  refine (mem_of_ite_addTag h).elim (fun h => ?_) (fun hx => absurd hx.1 (by decide))
  refine (mem_of_ite_addTag h).elim (fun h => ?_) (fun hx => absurd hx.1 (by decide))
  exact absurd h (List.not_mem_nil _)

theorem deriveTags_product {text : String} {p : Patterns}
    (h : "product" ∈ deriveTags text (some p)) : hasSome p.productCodes = true := by
  simp only [deriveTags] at h
  refine (mem_of_ite_addTag h).elim (fun h => ?_) (fun hx => absurd hx.1 (by decide))
  refine (mem_of_ite_addTag h).elim (fun h => ?_) (fun hx => absurd hx.1 (by decide))
  refine (mem_of_ite_addTag h).elim (fun h => ?_) (fun hx => absurd hx.1 (by decide))
  refine (mem_of_ite_addTag h).elim (fun h => ?_) (fun hx => hx.2)
  refine (mem_of_ite_addTag h).elim (fun h => ?_) (fun hx => absurd hx.1 (by decide))
  refine (mem_of_ite_addTag h).elim (fun h => ?_) (fun hx => absurd hx.1 (by decide))
  refine (mem_of_ite_addTag h).elim (fun h => ?_) (fun hx => absurd hx.1 (by decide))
  refine (mem_of_ite_addTag h).elim (fun h => ?_) (fun hx => absurd hx.1 (by decide))
  refine (mem_of_ite_addTag h).elim (fun h => ?_) (fun hx => absurd hx.1 (by decide))
  refine (mem_of_ite_addTag h).elim (fun h => ?_) (fun hx => absurd hx.1 (by decide))
  refine (mem_of_ite_addTag h).elim (fun h => ?_) (fun hx => absurd hx.1 (by decide))
  refine (mem_of_ite_addTag h).elim (fun h => ?_) (fun hx => absurd hx.1 (by decide))
  refine (mem_of_ite_addTag h).elim (fun h => ?_) (fun hx => absurd hx.1 (by decide))
  refine (mem_of_ite_addTag h).elim (fun h => ?_) (fun hx => absurd hx.1 (by decide))
  refine (mem_of_ite_addTag h).elim (fun h => ?_) (fun hx => absurd hx.1 (by decide))
  refine (mem_of_ite_addTag h).elim (fun h => ?_) (fun hx => absurd hx.1 (by decide))
  exact absurd h (List.not_mem_nil _)

theorem deriveTags_order {text : String} {p : Patterns}
    (h : "order" ∈ deriveTags text (some p)) :
    (hasSome p.productCodes && hasSome p.amounts) = true := by
  simp only [deriveTags] at h
  refine (mem_of_ite_addTag h).elim (fun h => ?_) (fun hx => hx.2)
  refine (mem_of_ite_addTag h).elim (fun h => ?_) (fun hx => absurd hx.1 (by decide))
  refine (mem_of_ite_addTag h).elim (fun h => ?_) (fun hx => absurd hx.1 (by decide))
  refine (mem_of_ite_addTag h).elim (fun h => ?_) (fun hx => absurd hx.1 (by decide))
  refine (mem_of_ite_addTag h).elim (fun h => ?_) (fun hx => absurd hx.1 (by decide))
  refine (mem_of_ite_addTag h).elim (fun h => ?_) (fun hx => absurd hx.1 (by decide))
  refine (mem_of_ite_addTag h).elim (fun h => ?_) (fun hx => absurd hx.1 (by decide))
  refine (mem_of_ite_addTag h).elim (fun h => ?_) (fun hx => absurd hx.1 (by decide))
  refine (mem_of_ite_addTag h).elim (fun h => ?_) (fun hx => absurd hx.1 (by decide))
  refine (mem_of_ite_addTag h).elim (fun h => ?_) (fun hx => absurd hx.1 (by decide))
  refine (mem_of_ite_addTag h).elim (fun h => ?_) (fun hx => absurd hx.1 (by decide))
  refine (mem_of_ite_addTag h).elim (fun h => ?_) (fun hx => absurd hx.1 (by decide))
  refine (mem_of_ite_addTag h).elim (fun h => ?_) (fun hx => absurd hx.1 (by decide))
  refine (mem_of_ite_addTag h).elim (fun h => ?_) (fun hx => absurd hx.1 (by decide))
  refine (mem_of_ite_addTag h).elim (fun h => ?_) (fun hx => absurd hx.1 (by decide))
  refine (mem_of_ite_addTag h).elim (fun h => ?_) (fun hx => absurd hx.1 (by decide))
  exact absurd h (List.not_mem_nil _)

/-! ## Claims -/

set_option maxRecDepth 1000000

/-- Scenario A text from the specification. -/
def scenarioText : String :=
  "Invoice #INV-2024-001 dated 03/15/2024 for $1,250.00. Contact: jane@example.com or 555-123-4567."

/-- Full evaluation of the extractor on the scenario text. -/
theorem scenario_patterns_eval : (analyzeImage scenarioText).patterns =
    { dates := ["03/15/2024"], amounts := ["$1,250.00"],
      emails := ["jane@example.com"],
      phoneNumbers := ["2024-001", "250.00", "555-123-4567"], addresses := [],
      identifiers := ["Invoice", "INV-2024", "Contact", "example"] } := by
  decide

/-- C1 (amended): the patterns object always carries all six category
keys, a category with zero matches included as an empty array; in
particular extraction from the empty text yields all six keys mapped
to empty arrays. -/
theorem c1_all_keys_always_present :
    (∀ T : String, (patternsMap (analyzeImage T).patterns).map Prod.fst =
      ["dates", "amounts", "emails", "phoneNumbers", "addresses", "identifiers"]) ∧
    patternsMap (analyzeImage "").patterns =
      [("dates", []), ("amounts", []), ("emails", []), ("phoneNumbers", []),
       ("addresses", []), ("identifiers", [])] :=
  ⟨fun _ => rfl, by decide⟩

/-- C1 counterexample: on the empty text the map does contain a
category key ("dates") mapped to an empty array, contradicting the
claim that empty categories are omitted. -/
theorem c1_counterexample :
    ¬ (∀ kv ∈ patternsMap (analyzeImage "").patterns, kv.2 ≠ []) := by
  intro h
  exact h ("dates", []) (by decide) rfl

/-- C2 (amended): on the Scenario A text the extractor yields
"03/15/2024" among dates, "$1,250.00" among amounts,
"jane@example.com" among emails, "555-123-4567" among phone numbers,
and "INV-2024" (not "INV-2024-001": the label match stops at the first
digit run) among identifiers. -/
theorem c2_scenario_extraction :
    "03/15/2024" ∈ (analyzeImage scenarioText).patterns.dates ∧
    "$1,250.00" ∈ (analyzeImage scenarioText).patterns.amounts ∧
    "jane@example.com" ∈ (analyzeImage scenarioText).patterns.emails ∧
    "555-123-4567" ∈ (analyzeImage scenarioText).patterns.phoneNumbers ∧
    "INV-2024" ∈ (analyzeImage scenarioText).patterns.identifiers := by
  rw [scenario_patterns_eval]
  exact ⟨by decide, by decide, by decide, by decide, by decide⟩

/-- C2 counterexample: the identifier list of the Scenario A text does
not contain "INV-2024-001" (the regex match "INV-2024" ends at the
word boundary before "-001"). -/
theorem c2_counterexample :
    "INV-2024-001" ∉ (analyzeImage scenarioText).patterns.identifiers := by
  rw [scenario_patterns_eval]
  decide

/-- C3 counterexample: a PO-prefixed token and a 4-4-4 digit group
yield no identifier match, while a lowercase word with no uppercase or
digit characters is matched; all three contradict the claimed
characterisation. -/
theorem c3_counterexample :
    matchCategory "PO-1234" Category.identifiers = [] ∧
    matchCategory "1234-5678-9012" Category.identifiers = [] ∧
    matchCategory "regards" Category.identifiers = ["regards"] :=
  ⟨by decide, by decide, by decide⟩

/-- C3 (amended): every identifier match is either a token made of one
of the labels INV, REF, ID, NO (case-insensitively), an optional "-"
or "#", and a nonempty digit run; or an alphanumeric run (either case)
of six or more characters.  PO and SO labels and 4-4-4 digit groups
are not recognised. -/
theorem c3_identifier_shape : ∀ (t m : String), m ∈ matchCategory t Category.identifiers →
    (∃ lab sep digs, m.data = lab ++ (sep ++ digs) ∧
        (∃ L ∈ ["INV", "REF", "ID", "NO"],
          lab.map Char.toLower = L.data.map Char.toLower) ∧
        (sep = [] ∨ sep = ['-'] ∨ sep = ['#']) ∧
        digs ≠ [] ∧ ∀ ch ∈ digs, isDigitChar ch = true) ∨
    (6 ≤ m.data.length ∧ ∀ ch ∈ m.data, alnumCC.test ch = true) := by
  intro t m hm
  obtain ⟨p, next, hacc⟩ := matchCategory_accept hm
  have hacc2 : Accept (.alt
      (.seq .wb (.seq (.alt (istr "INV") (.alt (istr "REF") (.alt (istr "ID") (istr "NO"))))
        (.seq (RE.opt (.cls (.ranges [] ['-', '#'] false)))
          (.seq (RE.plus (.cls .digit)) .wb))))
      (.seq .wb (.seq (.rep (.cls alnumCC) 6 none) .wb))) p m.data next := hacc
  rcases accept_alt_inv hacc2 with h | h
  · obtain ⟨cw, crest, hde, hw, hrest⟩ := accept_seq_inv h
    have hcw := accept_wb_inv hw
    subst hcw
    obtain ⟨clab, crest2, hde2, hlab, hrest2⟩ := accept_seq_inv hrest
    obtain ⟨csep, crest3, hde3, hsep, hrest3⟩ := accept_seq_inv hrest2
    obtain ⟨cdig, cwb2, hde4, hdig, hwb2⟩ := accept_seq_inv hrest3
    have hcwb2 := accept_wb_inv hwb2
    left
    refine ⟨clab, csep, cdig, ?_, ?_, ?_, ?_, ?_⟩
    · rw [hde, hde2, hde3, hde4, hcwb2]
      simp
    · rcases accept_alt_inv hlab with h1 | h1
      · exact ⟨"INV", by simp, accept_istrL _ h1⟩
      · rcases accept_alt_inv h1 with h2 | h2
        · exact ⟨"REF", by simp, accept_istrL _ h2⟩
        · rcases accept_alt_inv h2 with h3 | h3
          · exact ⟨"ID", by simp, accept_istrL _ h3⟩
          · exact ⟨"NO", by simp, accept_istrL _ h3⟩
    · obtain ⟨hall, _, hub⟩ := accept_rep_cls hsep
      have hlen := hub 1 rfl
      cases csep with
      | nil => exact Or.inl rfl
      | cons sx stail =>
          cases stail with
          | nil =>
              have hsx := hall sx (by simp)
              rw [CC.test] at hsx
              simp at hsx
              rcases hsx with rfl | rfl
              · exact Or.inr (Or.inl rfl)
              · exact Or.inr (Or.inr rfl)
          | cons _ _ => simp at hlen
    · obtain ⟨_, hlo, _⟩ := accept_rep_cls hdig
      intro he
      rw [he] at hlo
      simp at hlo
    · obtain ⟨hall, _, _⟩ := accept_rep_cls hdig
      intro ch hch
      exact hall ch hch
  · obtain ⟨cw, crest, hde, hw, hrest⟩ := accept_seq_inv h
    have hcw := accept_wb_inv hw
    subst hcw
    obtain ⟨crun, cwb2, hde2, hrun, hwb2⟩ := accept_seq_inv hrest
    have hcwb2 := accept_wb_inv hwb2
    obtain ⟨hall, hlo, _⟩ := accept_rep_cls hrun
    right
    constructor
    · rw [hde, hde2, hcwb2]
      simpa using hlo
    · intro ch hch
      rw [hde, hde2, hcwb2] at hch
      simp at hch
      exact hall ch hch

/-- C3 witness. -/
theorem c3_identifier_shape_witness :
    (∃ lab sep digs, ("REF#42" : String).data = lab ++ (sep ++ digs) ∧
        (∃ L ∈ ["INV", "REF", "ID", "NO"],
          lab.map Char.toLower = L.data.map Char.toLower) ∧
        (sep = [] ∨ sep = ['-'] ∨ sep = ['#']) ∧
        digs ≠ [] ∧ ∀ ch ∈ digs, isDigitChar ch = true) ∨
    (6 ≤ ("REF#42" : String).data.length ∧
      ∀ ch ∈ ("REF#42" : String).data, alnumCC.test ch = true) :=
  c3_identifier_shape "REF#42" "REF#42" (by decide)

/-- C4 counterexample: "12345" is returned as a phone-number match of
the text "12345" although it contains only five digits, under the
claimed lower bound of seven. -/
theorem c4_counterexample :
    "12345" ∈ matchCategory "12345" Category.phoneNumbers ∧ digitCount "12345" < 7 :=
  ⟨by decide, by decide⟩

/-- C4 (amended): every phone-number match contains between 5 and 24
digits (the regex requires five mandatory digit groups of sizes at
most 4, 3, 4, 4 and 9). -/
theorem c4_phone_digit_bounds : ∀ (t m : String),
    m ∈ matchCategory t Category.phoneNumbers →
    5 ≤ digitCount m ∧ digitCount m ≤ 24 := by
  intro t m hm
  obtain ⟨p, next, hacc⟩ := matchCategory_accept hm
  obtain ⟨hlb, hub⟩ := accept_digit_bounds hacc
  constructor
  · have h5 : dLB (categoryRE Category.phoneNumbers) = 5 := by decide
    rw [digitCount]
    exact h5 ▸ hlb
  · exact hub 24 (by decide)

/-- C4 witness. -/
theorem c4_phone_digit_bounds_witness :
    5 ≤ digitCount "555-123-4567" ∧ digitCount "555-123-4567" ≤ 24 :=
  c4_phone_digit_bounds "555-123-4567" "555-123-4567" (by decide)

/-- C5: for every text and category the match list is duplicate-free
even after trimming, and contains no entry that trims to the empty
string (matches never start or end with whitespace and are never
empty). -/
theorem c5_no_dup_no_empty : ∀ (t : String) (c : Category),
    ((matchCategory t c).Pairwise fun a b => jsTrim a ≠ jsTrim b) ∧
      ∀ m ∈ matchCategory t c, jsTrim m ≠ "" := by
  intro t c
  refine ⟨?_, fun m hm => ?_⟩
  · have hnd : (matchCategory t c).Nodup := jsDedup_nodup _
    refine hnd.imp_of_mem ?_
    intro a b ha hb hab
    rw [(matchCategory_trim_id t c a ha).1, (matchCategory_trim_id t c b hb).1]
    exact hab
  · rw [(matchCategory_trim_id t c m hm).1]
    exact (matchCategory_trim_id t c m hm).2

/-- C5 witness. -/
theorem c5_no_dup_no_empty_witness : jsTrim "05/06/2024" ≠ "" :=
  (c5_no_dup_no_empty "05/06/2024" Category.dates).2 "05/06/2024" (by decide)

/-- C6: the name-indexed matcher errors exactly on category names
outside the known set, and returns a (possibly empty) list for every
known category on any input string. -/
theorem c6_invalid_category : ∀ (t name : String),
    ((∃ e, matchByName t name = Except.error e) ↔ name ∉ knownCategories) ∧
      (name ∈ knownCategories → ∃ l, matchByName t name = Except.ok l) := by
  intro t name
  rw [matchByName, knownCategories]
  split_ifs with h1 h2 h3 h4 h5 h6 <;> simp_all

/-- C6 witness. -/
theorem c6_invalid_category_witness : ∃ l, matchByName "" "dates" = Except.ok l :=
  (c6_invalid_category "" "dates").2 (by decide)

/-- Scenario D patterns from the specification, under the client's
key names. -/
def scenarioDPatterns : Patterns :=
  { dates := some ["2024-01-01"], amounts := some ["$10.00"], emails := none,
    phoneNumbers := none, addresses := none, identifiers := none,
    urls := none, socialMediaHandles := none, productCodes := none }

/-- C7: deriving tags from the Scenario D extraction result produces
exactly the insertion-ordered set {invoice, date, financial,
transaction}, which contains all four claimed tags. -/
theorem c7_derive_tags :
    deriveTags "Invoice total due" (some scenarioDPatterns) =
      ["invoice", "date", "financial", "transaction"] ∧
    "invoice" ∈ deriveTags "Invoice total due" (some scenarioDPatterns) ∧
    "financial" ∈ deriveTags "Invoice total due" (some scenarioDPatterns) ∧
    "date" ∈ deriveTags "Invoice total due" (some scenarioDPatterns) ∧
    "transaction" ∈ deriveTags "Invoice total due" (some scenarioDPatterns) :=
  ⟨by decide, by decide, by decide, by decide, by decide⟩

/-- C8: with no requirements or an empty requirements string the
prompt is exactly the default instruction text; with a non-empty
requirements string the prompt starts with the requirements and still
contains the default instruction text in full at the end. -/
theorem c8_build_prompt :
    buildPrompt none = defaultPrompt ∧ buildPrompt (some "") = defaultPrompt ∧
      ∀ r : String, r ≠ "" →
        buildPrompt (some r) =
          r ++ ("\n\nAdditional analysis requirements: " ++ defaultPrompt) := by
  refine ⟨rfl, rfl, fun r hr => ?_⟩
  rw [buildPrompt, if_neg hr, String.append_assoc]

/-- C8 witness. -/
theorem c8_build_prompt_witness :
    buildPrompt (some "Focus on totals") =
      "Focus on totals" ++ ("\n\nAdditional analysis requirements: " ++ defaultPrompt) :=
  c8_build_prompt.2.2 "Focus on totals" (by decide)

/-- C9: matching is deterministic (a pure function of its input), and
the returned list keeps, in order, exactly the first occurrence of
each value of the left-to-right scan: it is a duplicate-free sublist
of the raw scan with the same members, ordered by first-occurrence
position. -/
theorem c9_deterministic_first_occurrence : ∀ (t : String) (c : Category),
    matchCategory t c = matchCategory t c ∧
    (matchCategory t c).Sublist (rawMatches t c) ∧
    (∀ x, x ∈ matchCategory t c ↔ x ∈ rawMatches t c) ∧
    (matchCategory t c).Pairwise
      (fun a b => firstIdx (rawMatches t c) a < firstIdx (rawMatches t c) b) := by
  intro t c
  exact ⟨rfl, jsDedup_sublist _, fun x => mem_jsDedup _ x, jsDedup_pairwise_firstIdx _⟩

/-- C9 witness. -/
theorem c9_deterministic_first_occurrence_witness :
    "05/06/2024" ∈ matchCategory "05/06/2024" Category.dates ↔
      "05/06/2024" ∈ rawMatches "05/06/2024" Category.dates :=
  (c9_deterministic_first_occurrence "05/06/2024" Category.dates).2.2.1 "05/06/2024"

/-- C10: the server patterns object has exactly the six keys dates,
amounts, emails, phoneNumbers, addresses, identifiers; the client
fields urls, socialMediaHandles and productCodes are undefined on
every server result, so the tags website, social, product and order
can never be derived from extractor output. -/
theorem c10_no_extra_categories : ∀ (content text : String),
    (patternsMap (analyzeImage content).patterns).map Prod.fst =
        ["dates", "amounts", "emails", "phoneNumbers", "addresses", "identifiers"] ∧
    (toClientPatterns (analyzeImage content).patterns).urls = none ∧
    (toClientPatterns (analyzeImage content).patterns).socialMediaHandles = none ∧
    (toClientPatterns (analyzeImage content).patterns).productCodes = none ∧
    "website" ∉ deriveTags text (some (toClientPatterns (analyzeImage content).patterns)) ∧
    "social" ∉ deriveTags text (some (toClientPatterns (analyzeImage content).patterns)) ∧
    "product" ∉ deriveTags text (some (toClientPatterns (analyzeImage content).patterns)) ∧
    "order" ∉ deriveTags text (some (toClientPatterns (analyzeImage content).patterns)) := by
  intro content text
  refine ⟨rfl, rfl, rfl, rfl, ?_, ?_, ?_, ?_⟩
  · intro h
    have := deriveTags_website h
    rw [toClientPatterns] at this
    simp [hasSome] at this
  · intro h
    have := deriveTags_social h
    rw [toClientPatterns] at this
    simp [hasSome] at this
  · intro h
    have := deriveTags_product h
    rw [toClientPatterns] at this
    simp [hasSome] at this
  · intro h
    have := deriveTags_order h
    rw [toClientPatterns] at this
    simp [hasSome] at this

/-- C10 witness. -/
theorem c10_no_extra_categories_witness :
    "website" ∉ deriveTags "Invoice" (some (toClientPatterns (analyzeImage "").patterns)) :=
  (c10_no_extra_categories "" "Invoice").2.2.2.2.1

end DataFromImages
